import Mathlib

/-!
Verification development for the PawPal pet-care scheduler
(`pawpal_system.py`).  The Python classes `Owner`, `Pet`, `Task` and
`Scheduler` are shallowly embedded as Lean structures and pure functions:
clock times are kept in parsed form (the code stores `"HH:MM"` strings and
parses them with `_time_to_minutes`), `datetime` timestamps are modelled as
integer seconds (`timedelta(days=1)` is 86400 seconds), Python `sorted`
(a stable sort by key) is modelled by `List.insertionSort` over the
corresponding total preorder, and the raise/no-raise behaviour of methods
is modelled with `Except`.
-/

deriving instance DecidableEq for Except

namespace PawPal

/-- Python `Priority` IntEnum value `LOW = 1`. -/
def Priority.LOW : Int := 1

/-- Python `Priority` IntEnum value `MEDIUM = 2`. -/
def Priority.MEDIUM : Int := 2

/-- Python `Priority` IntEnum value `HIGH = 3`. -/
def Priority.HIGH : Int := 3

/-- A parsed `"HH:MM"` clock time.  The Python code stores the string and
converts it with `_time_to_minutes` (split on `":"`, `hours*60 + minutes`);
the embedding keeps the two parsed numbers. -/
structure HM where
  hours : Nat
  minutes : Nat
deriving DecidableEq

/-- Back-reference from a task to its pet.  Only the pet's `name` field is
ever read through this reference (`task.pet.name`), so the embedding keeps
just that field. -/
structure PetRef where
  name : Option String
deriving DecidableEq

/-- The Python `Task` dataclass.  `duration` is an arbitrary Python int or
`None`; `priority` is an int (normally a `Priority` value); `status` and
`frequency` are the literal strings used by the code; `due_date` is a
timestamp in seconds. -/
structure Task where
  description : Option String
  duration : Option Int
  priority : Int
  status : String
  frequency : String
  pet : Option PetRef
  time : Option HM
  due_date : Option Int
deriving DecidableEq

/-- ASCII lowering of one character, as Python `str.lower()` acts on the
ASCII names and keywords this system compares. -/
def pyLowerChar (c : Char) : Char :=
  if 'A' ≤ c ∧ c ≤ 'Z' then Char.ofNat (c.toNat + 32) else c

/-- Python `str.lower()` on the ASCII strings used by the system. -/
def pyLower (s : String) : String :=
  ⟨s.data.map pyLowerChar⟩

/-- `Scheduler._time_to_minutes`: minutes from midnight of a parsed clock
time. -/
def time_to_minutes (t : HM) : Int :=
  (t.hours : Int) * 60 + (t.minutes : Int)

/-- `Task.change_status`: Python `match` on the new status string; the four
recognized statuses are assigned, anything else raises `ValueError` with a
message naming the offending value (modelled by `Except.error`). -/
def change_status (t : Task) (new_status : String) : Except String Task :=
  if new_status = "completed" then .ok { t with status := "completed" }
  else if new_status = "scheduled" then .ok { t with status := "scheduled" }
  else if new_status = "skipped" then .ok { t with status := "skipped" }
  else if new_status = "pending" then .ok { t with status := "pending" }
  else .error ("Invalid status: " ++ new_status ++
    ". Must be 'pending', 'scheduled', 'completed', or 'skipped'.")

/-- `Task.update_task`: `description`, `duration`, `priority` and
`frequency` default to `None` and are applied only when not `None`
(`none` here means "not supplied"); `time` and `due_date` default to the
`...` sentinel, so `none` means "not supplied" while `some v` (including
`some none`) assigns `v` verbatim — passing Python `None` clears the
field. -/
def update_task (t : Task) (description : Option String) (duration : Option Int)
    (priority : Option Int) (frequency : Option String)
    (time : Option (Option HM)) (due_date : Option (Option Int)) : Task :=
  let t1 := match description with
    | some v => { t with description := some v }
    | none => t
  let t2 := match duration with
    | some v => { t1 with duration := some v }
    | none => t1
  let t3 := match priority with
    | some v => { t2 with priority := v }
    | none => t2
  let t4 := match frequency with
    | some v => { t3 with frequency := v }
    | none => t3
  let t5 := match time with
    | some v => { t4 with time := v }
    | none => t4
  match due_date with
  | some v => { t5 with due_date := v }
  | none => t5

/-- One day of `datetime.timedelta(days=1)`, in seconds. -/
def oneDay : Int := 86400

/-- `Task.mark_complete`, with `datetime.now()` passed explicitly as `now`.
Sets status to `"completed"` via `change_status`; for `"daily"`/`"weekly"`
frequency builds the successor task with the due date advanced by one day
resp. one week (a `datetime` is always truthy, so a set `due_date` is used
as the baseline and `now` only when it is absent).  The Python code also
appends the successor to `self.pet.tasks`; the successor returned here
carries the same `pet` back-reference. -/
def mark_complete (t : Task) (now : Int) : Task × Option Task :=
  let t' := match change_status t "completed" with
    | .ok u => u
    | .error _ => t
  if t.frequency = "daily" ∨ t.frequency = "weekly" then
    let currentDue := t.due_date.getD now
    let nextDue := if t.frequency = "daily" then currentDue + oneDay
      else currentDue + 7 * oneDay
    let newTask : Task :=
      { description := t.description
        duration := t.duration
        priority := t.priority
        status := "pending"
        frequency := t.frequency
        pet := t.pet
        time := t.time
        due_date := some nextDue }
    (t', some newTask)
  else
    (t', none)

/-! ### Sorting

Python `sorted(xs, key=k)` is a stable sort by the key `k`.  It is
modelled by `List.insertionSort` over the total preorder
`fun a b => k a ≤ k b`, which produces the same (unique) stable
ordering; keys here are lexicographically ordered pairs of integers. -/

/-- Lexicographic `≤` on pairs of integers, the order Python uses for
2-tuple sort keys. -/
def lexLE (p q : Int × Int) : Prop :=
  p.1 < q.1 ∨ (p.1 = q.1 ∧ p.2 ≤ q.2)

instance : DecidableRel lexLE := fun p q =>
  inferInstanceAs (Decidable (p.1 < q.1 ∨ (p.1 = q.1 ∧ p.2 ≤ q.2)))

instance : IsTotal (Int × Int) lexLE :=
  ⟨by intro a b; unfold lexLE; omega⟩

instance : IsTrans (Int × Int) lexLE :=
  ⟨by intro a b c; unfold lexLE; omega⟩

/-- Sort key of `Scheduler._sort_tasks_by_priority`:
`(-t.priority, t.duration if t.duration else 0)` — a `None` (or zero)
duration contributes `0`. -/
def priorityKey (t : Task) : Int × Int :=
  (-t.priority, t.duration.getD 0)

/-- Order used by `_sort_tasks_by_priority`. -/
def priorityOrder (a b : Task) : Prop :=
  lexLE (priorityKey a) (priorityKey b)

instance : DecidableRel priorityOrder := fun a b =>
  inferInstanceAs (Decidable (lexLE _ _))

instance : IsTotal Task priorityOrder :=
  ⟨fun a b => total_of lexLE (priorityKey a) (priorityKey b)⟩

instance : IsTrans Task priorityOrder :=
  ⟨fun _ _ _ h1 h2 => trans_of lexLE h1 h2⟩

/-- `Scheduler._sort_tasks_by_priority`: stable sort by priority
(HIGH first), then by duration (shorter first). -/
def sort_tasks_by_priority (tasks : List Task) : List Task :=
  tasks.insertionSort priorityOrder

/-- Sort key of the fixed-time pass of `generate_schedule`:
`(self._time_to_minutes(t.time), -t.priority)`.  The pass only sorts
tasks whose `time` is present; a missing time contributes key `0`,
mirroring that the key function is never applied to it. -/
def fixedKey (t : Task) : Int × Int :=
  ((t.time.map time_to_minutes).getD 0, -t.priority)

/-- Order used on fixed-time tasks in `generate_schedule`. -/
def fixedOrder (a b : Task) : Prop :=
  lexLE (fixedKey a) (fixedKey b)

instance : DecidableRel fixedOrder := fun a b =>
  inferInstanceAs (Decidable (lexLE _ _))

instance : IsTotal Task fixedOrder :=
  ⟨fun a b => total_of lexLE (fixedKey a) (fixedKey b)⟩

instance : IsTrans Task fixedOrder :=
  ⟨fun _ _ _ h1 h2 => trans_of lexLE h1 h2⟩

/-- Order on occupied intervals: `sorted(intervals, key=lambda i: i[0])`. -/
def intervalOrder (a b : Int × Int) : Prop :=
  a.1 ≤ b.1

instance : DecidableRel intervalOrder := fun a b =>
  inferInstanceAs (Decidable (a.1 ≤ b.1))

instance : IsTotal (Int × Int) intervalOrder :=
  ⟨by intro a b; unfold intervalOrder; omega⟩

instance : IsTrans (Int × Int) intervalOrder :=
  ⟨by intro a b c; unfold intervalOrder; omega⟩

/-! ### Interval allocator -/

/-- Loop body of `Scheduler._find_available_slot`: scan the (sorted)
occupied intervals left to right; if the gap between the cursor and the
next interval's start fits the duration, return the cursor, otherwise
advance the cursor past the interval; after the loop, return the cursor
when the tail gap up to `window_end` fits, else `none`. -/
def slotGo (duration window_end : Int) : List (Int × Int) → Int → Option Int
  | [], cursor =>
      if cursor + duration ≤ window_end then some cursor else none
  | (s, e) :: rest, cursor =>
      if cursor + duration ≤ s then some cursor
      else slotGo duration window_end rest (if e > cursor then e else cursor)

/-- `Scheduler._find_available_slot`: earliest available slot of
`duration` minutes in `[window_start, window_end)`, given occupied
intervals (sorted by start before scanning). -/
def find_available_slot (duration : Int) (intervals : List (Int × Int))
    (window_start window_end : Int) : Option Int :=
  slotGo duration window_end (intervals.insertionSort intervalOrder) window_start

/-- `Scheduler._calculate_free_time`: total free minutes in
`[window_start, window_end)`, obtained by subtracting the clamped length
of every occupied interval. -/
def calculate_free_time (intervals : List (Int × Int))
    (window_start window_end : Int) : Int :=
  let occupied_time := intervals.foldl
    (fun acc iv =>
      let clamped_start := max iv.1 window_start
      let clamped_end := min iv.2 window_end
      if clamped_start < clamped_end then acc + (clamped_end - clamped_start)
      else acc)
    0
  max 0 ((window_end - window_start) - occupied_time)

/-! ### Owner / Pet and the schedule generator -/

/-- The Python `Pet` dataclass as seen by the scheduler: its name and its
task list.  (The owner back-reference plays no role in scheduling;
object-graph invariants are modelled separately by `World` below.) -/
structure SPet where
  name : Option String
  tasks : List Task
deriving DecidableEq

/-- The Python `Owner` dataclass: name, preference mapping (an association
list standing in for the dict; only the key `"preferred_time_window"` is
ever read), pets and the daily time budget. -/
structure Owner where
  name : Option String
  preferences : List (String × String)
  pets : List SPet
  available_time_minutes : Int
deriving DecidableEq

/-- `Pet.get_pending_tasks`: the tasks whose status is `"pending"`. -/
def get_pending_tasks (p : SPet) : List Task :=
  p.tasks.filter (fun t => t.status == "pending")

/-- `Scheduler._calculate_total_available_time` when an owner is present. -/
def calculate_total_available_time (o : Owner) : Int :=
  o.available_time_minutes

/-- `Scheduler._get_start_time`: 480 when the preference dict is empty
(falsy), otherwise the window looked up from
`preferences["preferred_time_window"]` lower-cased, defaulting to 480. -/
def get_start_time (o : Owner) : Int :=
  if o.preferences = [] then 480
  else
    let time_window := pyLower ((o.preferences.lookup "preferred_time_window").getD "")
    if time_window = "morning" then 360
    else if time_window = "afternoon" then 720
    else if time_window = "evening" then 1080
    else 480

/-- Why `generate_schedule` put a task on the skipped list.  The Python
code records these as formatted reason strings; the embedding keeps the
distinguishing content (which branch fired, and the numbers quoted by the
message). -/
inductive SkipReason where
  | noValidDuration
  | insufficientTotal (remaining needed : Int)
  | insufficientSlot (available needed : Int)
deriving DecidableEq

/-- One entry of `scheduled_tasks`.  The `time_range` and `reason` strings
of the Python dict are presentation-only renderings of these numbers and
are not re-modelled. -/
structure SchedEntry where
  task : Task
  pet_name : Option String
  start_time_minutes : Int
  end_time_minutes : Int
deriving DecidableEq

/-- `task.pet.name if task.pet else "unknown pet"`. -/
def petNameOf (t : Task) : Option String :=
  match t.pet with
  | some p => p.name
  | none => some "unknown pet"

/-- End of day, `24 * 60` minutes. -/
def day_end_time : Int := 24 * 60

/-- Mutable state of one `generate_schedule` pass: the two output lists,
the remaining budget, the minutes used, and the occupied intervals. -/
@[ext]
structure SchedState where
  scheduled : List SchedEntry
  skipped : List (Task × SkipReason)
  remaining : Int
  used : Int
  occupied : List (Int × Int)
deriving DecidableEq

/-- Loop body of the fixed-time pass of `generate_schedule`: skip on
invalid duration, skip when the duration exceeds the remaining budget,
otherwise place the task at its declared clock time unconditionally,
record the occupied interval (re-sorting, as the Python code does after
each append) and decrement the budget.  Status mutations of the task
object are not tracked: pending tasks are collected once up front, so
they do not influence the pass. -/
def fixedStep (st : SchedState) (task : Task) : SchedState :=
  match task.duration with
  | none => { st with skipped := st.skipped ++ [(task, .noValidDuration)] }
  | some d =>
    if d ≤ 0 then
      { st with skipped := st.skipped ++ [(task, .noValidDuration)] }
    else if st.remaining < d then
      { st with skipped := st.skipped ++ [(task, .insufficientTotal st.remaining d)] }
    else
      let s := (task.time.map time_to_minutes).getD 0
      let e := s + d
      { st with
        scheduled := st.scheduled ++ [⟨task, petNameOf task, s, e⟩]
        occupied := (st.occupied ++ [(s, e)]).insertionSort intervalOrder
        remaining := st.remaining - d
        used := st.used + d }

/-- Slot search of the flexible pass: search `[preferred_start, 1440)`
first, falling back to `[0, preferred_start)` when that fails and
`preferred_start > 0`. -/
def chooseSlot (preferred_start d : Int) (occupied : List (Int × Int)) : Option Int :=
  match find_available_slot d occupied preferred_start day_end_time with
  | some s => some s
  | none =>
    if preferred_start > 0 then
      find_available_slot d occupied 0 preferred_start
    else none

/-- Loop body of the flexible pass of `generate_schedule`: skip on invalid
duration or exhausted budget; otherwise place at the slot found by
`chooseSlot`, or skip citing the free minutes of the whole day. -/
def flexStep (preferred_start : Int) (st : SchedState) (task : Task) : SchedState :=
  match task.duration with
  | none => { st with skipped := st.skipped ++ [(task, .noValidDuration)] }
  | some d =>
    if d ≤ 0 then
      { st with skipped := st.skipped ++ [(task, .noValidDuration)] }
    else if st.remaining < d then
      { st with skipped := st.skipped ++ [(task, .insufficientTotal st.remaining d)] }
    else
      match chooseSlot preferred_start d st.occupied with
      | some s =>
        let e := s + d
        { st with
          scheduled := st.scheduled ++ [⟨task, petNameOf task, s, e⟩]
          occupied := (st.occupied ++ [(s, e)]).insertionSort intervalOrder
          remaining := st.remaining - d
          used := st.used + d }
      | none =>
        { st with skipped := st.skipped ++
            [(task, .insufficientSlot (calculate_free_time st.occupied 0 day_end_time) d)] }

/-- Final ordering of `scheduled_tasks`: ascending actual start time. -/
def startOrder (a b : SchedEntry) : Prop :=
  a.start_time_minutes ≤ b.start_time_minutes

instance : DecidableRel startOrder := fun a b =>
  inferInstanceAs (Decidable (a.start_time_minutes ≤ b.start_time_minutes))

instance : IsTotal SchedEntry startOrder :=
  ⟨by intro a b; unfold startOrder; omega⟩

instance : IsTrans SchedEntry startOrder :=
  ⟨by intro a b c; unfold startOrder; omega⟩

/-- Result of `Scheduler.generate_schedule`.  The human-readable
`explanation` string is presentation-only and not re-modelled. -/
structure ScheduleResult where
  scheduled_tasks : List SchedEntry
  skipped_tasks : List (Task × SkipReason)
  total_time_used : Int
deriving DecidableEq

/-- All pending tasks across the owner's pets, in pet order. -/
def pending_of (o : Owner) : List Task :=
  (o.pets.map get_pending_tasks).flatten

/-- The two placement passes of `generate_schedule`: the fixed-time pass
over the fixed tasks sorted by (clock time, descending priority), then
the flexible pass over the flexible tasks sorted by priority, starting
from the owner's full budget and no occupied intervals. -/
def schedule_passes (o : Owner) : SchedState :=
  let all_tasks := pending_of o
  let fixed_sorted :=
    (all_tasks.filter (fun t => t.time.isSome)).insertionSort fixedOrder
  let flex_sorted := sort_tasks_by_priority (all_tasks.filter (fun t => t.time.isNone))
  flex_sorted.foldl (flexStep (get_start_time o))
    (fixed_sorted.foldl fixedStep
      ⟨[], [], calculate_total_available_time o, 0, []⟩)

/-- `Scheduler.generate_schedule`: collect the pending tasks of all pets,
run the two placement passes, and sort the scheduled entries by start
time.  The `no owner` and `no pending tasks` early exits both return
empty lists. -/
def generate_schedule (owner : Option Owner) : ScheduleResult :=
  match owner with
  | none => ⟨[], [], 0⟩
  | some o =>
    if (pending_of o).isEmpty then ⟨[], [], 0⟩
    else
      let st := schedule_passes o
      ⟨st.scheduled.insertionSort startOrder, st.skipped, st.used⟩

/-! ### Conflict detection, filtering, and the object graph -/

/-- Derived start minute of a task inside `detect_conflicts` (both `time`
and `duration` are present for the tasks it examines; an absent time
contributes `0`, mirroring that the helper is never applied to it). -/
def taskStart (t : Task) : Int :=
  (t.time.map time_to_minutes).getD 0

/-- Derived end minute of a task inside `detect_conflicts`. -/
def taskEnd (t : Task) : Int :=
  taskStart t + t.duration.getD 0

/-- Strict-overlap test of `detect_conflicts`:
`task1_start < task2_end and task2_start < task1_end`. -/
def strictOverlap (t1 t2 : Task) : Prop :=
  taskStart t1 < taskEnd t2 ∧ taskStart t2 < taskEnd t1

instance : ∀ t1 t2, Decidable (strictOverlap t1 t2) := fun t1 t2 =>
  inferInstanceAs (Decidable (_ ∧ _))

/-- The double loop of `detect_conflicts`: every pair `(i, j)` with
`i < j` of the filtered list, in loop order, kept when the intervals
strictly overlap.  The formatted `message` of the Python conflict dict is
presentation-only and not re-modelled. -/
def conflictPairs : List Task → List (Task × Task)
  | [] => []
  | t :: rest =>
      (rest.filter (fun u => decide (strictOverlap t u))).map (fun u => (t, u)) ++
        conflictPairs rest

/-- `Scheduler.detect_conflicts`: restrict to tasks with both a time and a
duration, then report each strictly overlapping pair. -/
def detect_conflicts (tasks : List Task) : List (Task × Task) :=
  conflictPairs (tasks.filter (fun t => t.time.isSome && t.duration.isSome))

/-- The pet-name test of `filter_tasks`:
`t.pet and t.pet.name.lower() == pet_name.lower()`.  A task with a pet
whose `name` is `None` makes the Python expression raise
`AttributeError` (`None` has no `.lower()`), modelled as `Except.error`. -/
def petNameMatches (pet_name : String) (t : Task) : Except String Bool :=
  match t.pet with
  | none => .ok false
  | some p =>
    match p.name with
    | none => .error "AttributeError: 'NoneType' object has no attribute 'lower'"
    | some nm => .ok (pyLower nm == pyLower pet_name)

/-- A list comprehension whose predicate can raise: elements are tested
left to right and the first raise aborts the whole comprehension. -/
def exceptFilter (f : Task → Except String Bool) : List Task → Except String (List Task)
  | [] => .ok []
  | t :: ts =>
    match f t with
    | .error e => .error e
    | .ok b =>
      match exceptFilter f ts with
      | .error e => .error e
      | .ok rest => .ok (if b then t :: rest else rest)

/-- `Scheduler.filter_tasks`: optionally filter by pet name
(case-insensitive, can raise as in `petNameMatches`), then optionally by
status (compared to the lower-cased argument; cannot raise). -/
def filter_tasks (tasks : List Task) (pet_name : Option String)
    (status : Option String) : Except String (List Task) :=
  let step1 : Except String (List Task) :=
    match pet_name with
    | none => .ok tasks
    | some pn => exceptFilter (petNameMatches pn) tasks
  match step1 with
  | .error e => .error e
  | .ok filtered =>
    match status with
    | none => .ok filtered
    | some st => .ok (filtered.filter (fun t => t.status == pyLower st))

/-! ### Object graph: owners, pets, tasks and their back-references.

`Owner.add_pet` / `remove_pet` and `Pet.add_task` / `remove_task` mutate
a heap of objects identified by their Python identity.  The heap is
modelled as maps from pet / task identifiers to the containing collection
and back-reference. -/

/-- Heap of the object graph: each owner's pet list, each pet's owner
back-reference, each pet's task list, each task's pet back-reference.
Identifiers stand for Python object identities. -/
structure World where
  ownerPets : Nat → List Nat
  petOwner : Nat → Option Nat
  petTasks : Nat → List Nat
  taskPet : Nat → Option Nat

/-- `Owner.add_pet`: if the pet is not already in this owner's list,
append it and point its back-reference at this owner (both inside the
guard). -/
def add_pet (w : World) (o p : Nat) : World :=
  if p ∈ w.ownerPets o then w
  else
    { w with
      ownerPets := fun o' => if o' = o then w.ownerPets o ++ [p] else w.ownerPets o'
      petOwner := fun p' => if p' = p then some o else w.petOwner p' }

/-- `Owner.remove_pet`: if the pet is in this owner's list, remove it
(first occurrence, as `list.remove`) and clear its back-reference. -/
def remove_pet (w : World) (o p : Nat) : World :=
  if p ∈ w.ownerPets o then
    { w with
      ownerPets := fun o' => if o' = o then (w.ownerPets o).erase p else w.ownerPets o'
      petOwner := fun p' => if p' = p then none else w.petOwner p' }
  else w

/-- `Pet.add_task`: if the task is not already in this pet's list, append
it and point its back-reference at this pet. -/
def add_task (w : World) (p t : Nat) : World :=
  if t ∈ w.petTasks p then w
  else
    { w with
      petTasks := fun p' => if p' = p then w.petTasks p ++ [t] else w.petTasks p'
      taskPet := fun t' => if t' = t then some p else w.taskPet t' }

/-- `Pet.remove_task`: if the task is in this pet's list, remove it and
clear its back-reference. -/
def remove_task (w : World) (p t : Nat) : World :=
  if t ∈ w.petTasks p then
    { w with
      petTasks := fun p' => if p' = p then (w.petTasks p).erase t else w.petTasks p'
      taskPet := fun t' => if t' = t then none else w.taskPet t' }
  else w

/-- One call against the object graph. -/
inductive GraphOp where
  | addPet (o p : Nat)
  | removePet (o p : Nat)
  | addTask (p t : Nat)
  | removeTask (p t : Nat)

/-- Interpretation of a call. -/
def applyOp (w : World) : GraphOp → World
  | .addPet o p => add_pet w o p
  | .removePet o p => remove_pet w o p
  | .addTask p t => add_task w p t
  | .removeTask p t => remove_task w p t

/-- Interpretation of a call sequence, first call first. -/
def applyOps (w : World) : List GraphOp → World
  | [] => w
  | op :: ops => applyOps (applyOp w op) ops

/-- Claim C2, first half: a scheduled entry carrying a clock time starts
exactly at that parsed time. -/
def FixedStartExact (e : SchedEntry) : Prop :=
  ∀ hm, e.task.time = some hm → e.start_time_minutes = time_to_minutes hm

/-- Claim C2, second half: a skipped fixed-time task was rejected only for
an invalid duration or a genuinely exhausted budget — never because its
interval overlaps another task's. -/
def FixedSkipJustified (pr : Task × SkipReason) : Prop :=
  pr.1.time.isSome →
    (pr.2 = .noValidDuration ∧
      (pr.1.duration = none ∨ ∃ d, pr.1.duration = some d ∧ d ≤ 0)) ∨
    (∃ rem d, pr.2 = .insufficientTotal rem d ∧ pr.1.duration = some d ∧ rem < d)

/-- Consistency of the object graph (claim C9): membership in a
collection implies the matching back-reference, and the collections are
duplicate-free (as the `not in` guards of the add methods maintain).
Membership-implies-back-reference subsumes the spec's "at most one
owner/pet" phrasing, proved as `atMostOneOwner` / `atMostOnePet`. -/
def GraphInv (w : World) : Prop :=
  (∀ o p, p ∈ w.ownerPets o → w.petOwner p = some o) ∧
  (∀ o, (w.ownerPets o).Nodup) ∧
  (∀ p t, t ∈ w.petTasks p → w.taskPet t = some p) ∧
  (∀ p, (w.petTasks p).Nodup)

/-- Each pet appears in at most one owner's collection. -/
def atMostOneOwner (w : World) : Prop :=
  ∀ p o1 o2, p ∈ w.ownerPets o1 → p ∈ w.ownerPets o2 → o1 = o2

/-- Each task appears in at most one pet's collection. -/
def atMostOnePet (w : World) : Prop :=
  ∀ t p1 p2, t ∈ w.petTasks p1 → t ∈ w.petTasks p2 → p1 = p2

/-- Precondition on a call (claim C9, amended): a pet/task may only be
added while it is unattached.  Removals are unrestricted. -/
def ValidOp (w : World) : GraphOp → Prop
  | .addPet _ p => w.petOwner p = none
  | .removePet _ _ => True
  | .addTask _ t => w.taskPet t = none
  | .removeTask _ _ => True

/-- Validity of a call sequence, each call judged in the state it runs
in. -/
def ValidOps : World → List GraphOp → Prop
  | _, [] => True
  | w, op :: ops => ValidOp w op ∧ ValidOps (applyOp w op) ops

/-- Specification-side count (claim C4) of the unordered pairs of a task
list whose derived intervals strictly overlap, each pair counted once. -/
def countStrictOverlapPairs : List Task → Nat
  | [] => 0
  | t :: rest =>
      (rest.countP (fun u => decide (strictOverlap t u))) + countStrictOverlapPairs rest

/-! ### Concrete sample data used by the instance parts of the theorems -/

/-- A task with every field populated. -/
def sampleTask : Task :=
  ⟨some "Original", some 30, 2, "pending", "once", none, some ⟨8, 0⟩, some 1000⟩

/-- A daily recurring task with a due date. -/
def dailyTask : Task :=
  ⟨some "Feed", some 15, 3, "pending", "daily", some ⟨some "Rex"⟩, some ⟨9, 0⟩, some 5000⟩

/-- LOW priority, 5 minutes. -/
def lowTask5 : Task := ⟨some "LOW5", some 5, 1, "pending", "once", none, none, none⟩

/-- HIGH priority, 20 minutes. -/
def highTask20 : Task := ⟨some "HIGH20", some 20, 3, "pending", "once", none, none, none⟩

/-- HIGH priority, 10 minutes. -/
def highTask10 : Task := ⟨some "HIGH10", some 10, 3, "pending", "once", none, none, none⟩

/-- Two tasks with identical sort keys but different descriptions. -/
def dupTaskA : Task := ⟨some "A", some 10, 2, "pending", "once", none, none, none⟩

/-- Second task of the equal-key pair. -/
def dupTaskB : Task := ⟨some "B", some 10, 2, "pending", "once", none, none, none⟩

/-- 08:00 for 30 minutes. -/
def taskA0800x30 : Task := ⟨some "a", some 30, 2, "pending", "once", none, some ⟨8, 0⟩, none⟩

/-- 08:30 for 30 minutes (back-to-back with the previous). -/
def taskB0830x30 : Task := ⟨some "b", some 30, 2, "pending", "once", none, some ⟨8, 30⟩, none⟩

/-- 08:00 for 15 minutes (same start as the first). -/
def taskC0800x15 : Task := ⟨some "c", some 15, 2, "pending", "once", none, some ⟨8, 0⟩, none⟩

/-- A task whose pet exists but has a `None` name. -/
def namelessPetTask : Task :=
  ⟨some "x", some 5, 2, "pending", "once", some ⟨none⟩, none, none⟩

/-- Fixed-time task at 00:00 lasting 1400 minutes (claim C3). -/
def monoFixedTask : Task :=
  ⟨some "Fix", some 1400, 2, "pending", "once", none, some ⟨0, 0⟩, none⟩

/-- Flexible 50-minute task (claim C3). -/
def monoFlexTask : Task :=
  ⟨some "Flex", some 50, 2, "pending", "once", none, none, none⟩

/-- Owner holding the two C3 tasks, parametrised by the daily budget. -/
def monoOwner (b : Int) : Owner :=
  ⟨none, [], [⟨some "P", [monoFixedTask, monoFlexTask]⟩], b⟩

/-- Fixed-time task at 09:30 lasting 45 minutes (claim C2 witness). -/
def vetTask : Task :=
  ⟨some "Vet", some 45, 2, "pending", "once", none, some ⟨9, 30⟩, none⟩

/-- Owner holding the 09:30 fixed task. -/
def vetOwner : Owner := ⟨some "O", [], [⟨some "P", [vetTask]⟩], 480⟩

/-- Owner whose single small flexible task always fits (claim C3 witness). -/
def easyOwner (b : Int) : Owner :=
  ⟨none, [], [⟨some "P", [⟨some "Walk", some 20, 3, "pending", "once", none, none, none⟩]⟩], b⟩

/-- Object graph with pet 0 owned by owner 0 and everything else empty
(claim C9). -/
def twoOwnerWorld : World :=
  ⟨fun o => if o = 0 then [0] else [],
   fun p => if p = 0 then some 0 else none,
   fun _ => [],
   fun _ => none⟩

end PawPal

namespace PawPal

/-! ### Theorems -/

/-- C6: `change_status` sets the task's status exactly when the argument is
one of the four recognized statuses; for any other argument it produces an
error whose message names the offending value (the error value propagates
to the caller in the `Except` model) and no updated task is produced, so
the task is unchanged by the failed call. -/
theorem change_status_spec (t : Task) (s : String) :
    (s = "pending" ∨ s = "scheduled" ∨ s = "completed" ∨ s = "skipped" →
      change_status t s = .ok { t with status := s }) ∧
    (s ≠ "pending" → s ≠ "scheduled" → s ≠ "completed" → s ≠ "skipped" →
      change_status t s = .error ("Invalid status: " ++ s ++
        ". Must be 'pending', 'scheduled', 'completed', or 'skipped'.") ∧
      ∀ t', change_status t s ≠ .ok t') := by
  constructor
  · rintro (rfl | rfl | rfl | rfl) <;> simp [change_status]
  · intro h1 h2 h3 h4
    constructor
    · simp [change_status, h1, h2, h3, h4]
    · intro t'
      simp [change_status, h1, h2, h3, h4]

/-- Witness for C6: a valid and an invalid transition at concrete inputs. -/
theorem change_status_spec_witness :
    change_status ⟨none, none, 2, "pending", "once", none, none, none⟩ "scheduled" =
      .ok ⟨none, none, 2, "scheduled", "once", none, none, none⟩ ∧
    change_status ⟨none, none, 2, "pending", "once", none, none, none⟩ "done" =
      .error "Invalid status: done. Must be 'pending', 'scheduled', 'completed', or 'skipped'." := by
  constructor
  · exact (change_status_spec ⟨none, none, 2, "pending", "once", none, none, none⟩
      "scheduled").1 (Or.inr (Or.inl rfl))
  · exact ((change_status_spec ⟨none, none, 2, "pending", "once", none, none, none⟩
      "done").2 (by decide) (by decide) (by decide) (by decide)).1

/-- C7: `update_task` applies exactly the supplied fields: each of
description, duration, priority, frequency, time and due-date that is not
supplied (`none` at the call) keeps its prior value; a supplied field takes
the supplied value, and for time / due-date the supplied value may itself
be `none` (Python `None`), which clears the field — distinguishable from
omitting it.  Fields outside the six (status, pet) never change. -/
theorem update_task_spec (t : Task) (d : Option String) (dur : Option Int)
    (p : Option Int) (f : Option String) (tm : Option (Option HM))
    (dd : Option (Option Int)) :
    (d = none → (update_task t d dur p f tm dd).description = t.description) ∧
    (∀ v, d = some v → (update_task t d dur p f tm dd).description = some v) ∧
    (dur = none → (update_task t d dur p f tm dd).duration = t.duration) ∧
    (∀ v, dur = some v → (update_task t d dur p f tm dd).duration = some v) ∧
    (p = none → (update_task t d dur p f tm dd).priority = t.priority) ∧
    (∀ v, p = some v → (update_task t d dur p f tm dd).priority = v) ∧
    (f = none → (update_task t d dur p f tm dd).frequency = t.frequency) ∧
    (∀ v, f = some v → (update_task t d dur p f tm dd).frequency = v) ∧
    (tm = none → (update_task t d dur p f tm dd).time = t.time) ∧
    (∀ v, tm = some v → (update_task t d dur p f tm dd).time = v) ∧
    (dd = none → (update_task t d dur p f tm dd).due_date = t.due_date) ∧
    (∀ v, dd = some v → (update_task t d dur p f tm dd).due_date = v) ∧
    (update_task t d dur p f tm dd).status = t.status ∧
    (update_task t d dur p f tm dd).pet = t.pet := by
  cases d <;> cases dur <;> cases p <;> cases f <;> cases tm <;> cases dd <;>
    simp [update_task]

/-- Witness for C7: updating description and clearing time at a concrete
task leaves duration, due-date, status untouched. -/
theorem update_task_spec_witness :
    (update_task sampleTask (some "New") none none none (some none) none).description =
      some "New" ∧
    (update_task sampleTask (some "New") none none none (some none) none).duration =
      sampleTask.duration ∧
    (update_task sampleTask (some "New") none none none (some none) none).time = none ∧
    (update_task sampleTask (some "New") none none none (some none) none).due_date =
      sampleTask.due_date := by
  obtain ⟨h1, h2, h3, h4, h5, h6, h7, h8, h9, h10, h11, h12, h13, h14⟩ :=
    update_task_spec sampleTask (some "New") none none none (some none) none
  exact ⟨h2 "New" rfl, h3 rfl, h10 none rfl, h11 rfl⟩

/-- C5: `mark_complete` on a task with a set due date marks it completed;
for `"daily"` frequency it returns a successor due exactly one day later,
for `"weekly"` exactly seven days later, with the same description,
duration, priority, frequency and time, status `"pending"`, and the same
pet back-reference; for `"once"` it returns no successor and the original
stays completed. -/
theorem mark_complete_spec (t : Task) (now d : Int) (h : t.due_date = some d) :
    (mark_complete t now).1.status = "completed" ∧
    (t.frequency = "daily" → (mark_complete t now).2 =
      some ⟨t.description, t.duration, t.priority, "pending", t.frequency,
        t.pet, t.time, some (d + oneDay)⟩) ∧
    (t.frequency = "weekly" → (mark_complete t now).2 =
      some ⟨t.description, t.duration, t.priority, "pending", t.frequency,
        t.pet, t.time, some (d + 7 * oneDay)⟩) ∧
    (t.frequency = "once" → (mark_complete t now).2 = none) := by
  refine ⟨?_, ?_, ?_, ?_⟩
  · simp only [mark_complete, change_status]
    split <;> rfl
  · intro hf; simp [mark_complete, hf, h]
  · intro hf; simp [mark_complete, hf, h]
  · intro hf; simp [mark_complete, hf]

/-- Witness for C5: completing a concrete daily task yields the
day-advanced pending successor. -/
theorem mark_complete_spec_witness :
    (mark_complete dailyTask 0).1.status = "completed" ∧
    (mark_complete dailyTask 0).2 =
      some ⟨some "Feed", some 15, 3, "pending", "daily", some ⟨some "Rex"⟩,
        some ⟨9, 0⟩, some (5000 + oneDay)⟩ := by
  obtain ⟨h1, h2, h3, h4⟩ := mark_complete_spec dailyTask 0 5000 rfl
  exact ⟨h1, h2 rfl⟩

/-- C8: `_sort_tasks_by_priority` permutes its input into an order where
higher priority comes first and, among equal priorities, shorter duration
first (a missing duration counting as 0); tasks with equal priority and
equal duration key keep their input order (stability); and the concrete
list [LOW/5, HIGH/20, HIGH/10] sorts to [HIGH/10, HIGH/20, LOW/5]. -/
theorem sort_tasks_by_priority_spec :
    (∀ tasks : List Task,
      (sort_tasks_by_priority tasks).Perm tasks ∧
      (sort_tasks_by_priority tasks).Pairwise (fun a b =>
        b.priority < a.priority ∨
          (a.priority = b.priority ∧ a.duration.getD 0 ≤ b.duration.getD 0)) ∧
      ∀ a b : Task, List.Sublist [a, b] tasks → priorityKey a = priorityKey b →
        List.Sublist [a, b] (sort_tasks_by_priority tasks)) ∧
    sort_tasks_by_priority [lowTask5, highTask20, highTask10] =
      [highTask10, highTask20, lowTask5] := by
  constructor
  · intro tasks
    refine ⟨List.perm_insertionSort priorityOrder tasks, ?_, ?_⟩
    · have hs := List.sorted_insertionSort priorityOrder tasks
      exact List.Pairwise.imp
        (fun h => by simp [priorityOrder, lexLE, priorityKey] at h ⊢; omega) hs
    · intro a b hsub hkey
      show List.Sublist [a, b] (List.insertionSort priorityOrder tasks)
      refine List.pair_sublist_insertionSort ?_ hsub
      simp [priorityOrder, lexLE, hkey]
  · decide

/-- Witness for C8: the general part applied to a concrete list with an
equal-key pair, preserving its order. -/
theorem sort_tasks_by_priority_spec_witness :
    List.Sublist [dupTaskA, dupTaskB] (sort_tasks_by_priority [lowTask5, dupTaskA, dupTaskB]) := by
  exact (sort_tasks_by_priority_spec.1 [lowTask5, dupTaskA, dupTaskB]).2.2 dupTaskA dupTaskB
    ((List.Sublist.refl [dupTaskA, dupTaskB]).cons lowTask5) (by decide)

/-- The cursor of the slot scan never moves backwards: a found slot is at
or after the starting cursor. -/
theorem slotGo_ge {d we : Int} : ∀ {l : List (Int × Int)} {c s : Int},
    slotGo d we l c = some s → c ≤ s := by
  intro l
  induction l with
  | nil =>
    intro c s h
    simp only [slotGo] at h
    split at h
    · cases h; omega
    · cases h
  | cons iv rest ih =>
    intro c s h
    obtain ⟨a, b⟩ := iv
    simp only [slotGo] at h
    split at h
    · cases h; omega
    · have h1 := ih h
      have h2 : c ≤ if b > c then b else c := by split <;> omega
      omega

/-- A slot found by the scan over a start-sorted interval list does not
overlap any of the intervals. -/
theorem slotGo_no_overlap {d we : Int} : ∀ {l : List (Int × Int)} {c s : Int},
    l.Pairwise intervalOrder → slotGo d we l c = some s →
    ∀ iv ∈ l, ¬(s < iv.2 ∧ iv.1 < s + d) := by
  intro l
  induction l with
  | nil => intro c s _ _ iv hiv; cases hiv
  | cons hd rest ih =>
    intro c s hp h iv hiv
    obtain ⟨a, b⟩ := hd
    rw [List.pairwise_cons] at hp
    simp only [slotGo] at h
    split at h
    · cases h
      rcases List.mem_cons.mp hiv with rfl | hiv
      · rintro ⟨h1, h2⟩
        simp only at h1 h2
        omega
      · have hord := hp.1 iv hiv
        unfold intervalOrder at hord
        rintro ⟨h1, h2⟩
        omega
    · rcases List.mem_cons.mp hiv with rfl | hiv
      · have hge := slotGo_ge h
        rintro ⟨h1, h2⟩
        simp only at h1 h2
        split at hge <;> omega
      · exact ih hp.2 h iv hiv

/-- Minimality of the found slot: any candidate at or after the starting
cursor but before the found slot overlaps one of the intervals. -/
theorem slotGo_earliest {d we : Int} : ∀ {l : List (Int × Int)} {c s : Int},
    slotGo d we l c = some s →
    ∀ x, c ≤ x → x < s → ∃ iv ∈ l, x < iv.2 ∧ iv.1 < x + d := by
  intro l
  induction l with
  | nil =>
    intro c s h x hx1 hx2
    simp only [slotGo] at h
    split at h
    · cases h; omega
    · cases h
  | cons hd rest ih =>
    intro c s h x hx1 hx2
    obtain ⟨a, b⟩ := hd
    simp only [slotGo] at h
    split at h
    · cases h; omega
    · by_cases hcx : (if b > c then b else c) ≤ x
      · obtain ⟨iv, hiv, hov⟩ := ih h x hcx hx2
        exact ⟨iv, List.mem_cons_of_mem _ hiv, hov⟩
      · refine ⟨(a, b), List.mem_cons_self _ _, ?_, ?_⟩
        · show x < b
          split at hcx <;> omega
        · show a < x + d
          split at hcx <;> omega

/-- When the scan reports no slot, every candidate start inside the window
overlaps one of the intervals. -/
theorem slotGo_none {d we : Int} : ∀ {l : List (Int × Int)} {c : Int},
    slotGo d we l c = none →
    ∀ x, c ≤ x → x + d ≤ we → ∃ iv ∈ l, x < iv.2 ∧ iv.1 < x + d := by
  intro l
  induction l with
  | nil =>
    intro c h x hx1 hx2
    simp only [slotGo] at h
    split at h
    · cases h
    · exfalso; omega
  | cons hd rest ih =>
    intro c h x hx1 hx2
    obtain ⟨a, b⟩ := hd
    simp only [slotGo] at h
    split at h
    · cases h
    · by_cases hcx : (if b > c then b else c) ≤ x
      · obtain ⟨iv, hiv, hov⟩ := ih h x hcx hx2
        exact ⟨iv, List.mem_cons_of_mem _ hiv, hov⟩
      · refine ⟨(a, b), List.mem_cons_self _ _, ?_, ?_⟩
        · show x < b
          split at hcx <;> omega
        · show a < x + d
          split at hcx <;> omega

/-- When every interval starts no later than the window end, a found slot
fits inside the window. -/
theorem slotGo_window_end {d we : Int} : ∀ {l : List (Int × Int)} {c s : Int},
    (∀ iv ∈ l, iv.1 ≤ we) → slotGo d we l c = some s → s + d ≤ we := by
  intro l
  induction l with
  | nil =>
    intro c s _ h
    simp only [slotGo] at h
    split at h
    · cases h; omega
    · cases h
  | cons hd rest ih =>
    intro c s hb h
    obtain ⟨a, b⟩ := hd
    simp only [slotGo] at h
    split at h
    · cases h
      have := hb (a, b) (List.mem_cons_self _ _)
      simp only at this
      omega
    · exact ih (fun iv hiv => hb iv (List.mem_cons_of_mem _ hiv)) h

/-- C1 counterexample: as stated, the claim is false — a returned slot can
cross `windowEnd` when an occupied interval starts beyond the window.
With duration 500, occupied `[(1200, 1260)]` and window `[0, 480)`, the
function returns start 0, yet `0 + 500 ≤ 480` fails. -/
theorem find_available_slot_claim_counterexample :
    find_available_slot 500 [(1200, 1260)] 0 480 = some 0 ∧
      ¬((0 : Int) + 500 ≤ 480) := by decide

/-- C1 (amended): when `_find_available_slot` returns a start `s`, then
`windowStart ≤ s`, `[s, s+d)` overlaps no occupied interval, `s` is the
earliest such start (any earlier candidate in the window overlaps some
interval), and — provided every occupied interval starts no later than
`windowEnd` (the amendment forced by the counterexample) — `s + d ≤
windowEnd`; when it returns `none`, no start in the window fits without
overlap; and on the spec's occupied set with duration 40 over `[0, 1440)`
it returns `none`. -/
theorem find_available_slot_spec :
    (∀ (d : Int) (intervals : List (Int × Int)) (ws we : Int), 0 < d →
      (∀ s, find_available_slot d intervals ws we = some s →
        ws ≤ s ∧
        (∀ iv ∈ intervals, ¬(s < iv.2 ∧ iv.1 < s + d)) ∧
        (∀ x, ws ≤ x → x < s → ∃ iv ∈ intervals, x < iv.2 ∧ iv.1 < x + d) ∧
        ((∀ iv ∈ intervals, iv.1 ≤ we) → s + d ≤ we)) ∧
      (find_available_slot d intervals ws we = none →
        ∀ x, ws ≤ x → x + d ≤ we → ∃ iv ∈ intervals, x < iv.2 ∧ iv.1 < x + d)) ∧
    find_available_slot 40 [(0, 300), (330, 630), (660, 960), (990, 1290), (1320, 1440)]
      0 1440 = none := by
  constructor
  · intro d intervals ws we _
    constructor
    · intro s h
      unfold find_available_slot at h
      refine ⟨slotGo_ge h, ?_, ?_, ?_⟩
      · intro iv hiv
        exact slotGo_no_overlap (List.sorted_insertionSort intervalOrder intervals) h iv
          ((List.mem_insertionSort intervalOrder).mpr hiv)
      · intro x hx1 hx2
        obtain ⟨iv, hiv, hov⟩ := slotGo_earliest h x hx1 hx2
        exact ⟨iv, (List.mem_insertionSort intervalOrder).mp hiv, hov⟩
      · intro hb
        exact slotGo_window_end
          (fun iv hiv => hb iv ((List.mem_insertionSort intervalOrder).mp hiv)) h
    · intro h x hx1 hx2
      unfold find_available_slot at h
      obtain ⟨iv, hiv, hov⟩ := slotGo_none h x hx1 hx2
      exact ⟨iv, (List.mem_insertionSort intervalOrder).mp hiv, hov⟩
  · decide

/-- Witness for C1: the amended theorem applied at duration 30 over the
spec's occupied set, where the slot 300 is returned: the window start
bounds it and it does not overlap the first occupied interval. -/
theorem find_available_slot_spec_witness :
    (0 : Int) ≤ 300 ∧ ¬((300 : Int) < 300 ∧ (0 : Int) < 300 + 30) := by
  have h := (find_available_slot_spec.1 30
    [(0, 300), (330, 630), (660, 960), (990, 1290), (1320, 1440)] 0 1440 (by decide)).1
    300 (by decide)
  exact ⟨h.1, h.2.1 (0, 300) (by decide)⟩

/-- The pair scan reports exactly as many records as there are strictly
overlapping pairs. -/
theorem conflictPairs_length : ∀ l : List Task,
    (conflictPairs l).length = countStrictOverlapPairs l := by
  intro l
  induction l with
  | nil => rfl
  | cons t rest ih =>
    simp only [conflictPairs, countStrictOverlapPairs, List.length_append,
      List.length_map, ih, List.countP_eq_length_filter]

/-- Every record of the pair scan is a strictly overlapping pair occurring
in order in the scanned list. -/
theorem conflictPairs_sound : ∀ l : List Task, ∀ p ∈ conflictPairs l,
    strictOverlap p.1 p.2 ∧ List.Sublist [p.1, p.2] l := by
  intro l
  induction l with
  | nil => intro p hp; cases hp
  | cons t rest ih =>
    intro p hp
    rcases List.mem_append.mp hp with hp | hp
    · obtain ⟨u, hu, rfl⟩ := List.mem_map.mp hp
      have hov := List.of_mem_filter hu
      have hmem := List.mem_of_mem_filter hu
      refine ⟨of_decide_eq_true hov, ?_⟩
      exact (List.singleton_sublist.mpr hmem).cons₂ t
    · obtain ⟨hov, hsub⟩ := ih p hp
      exact ⟨hov, hsub.cons t⟩

/-- Every ordered pair of the scanned list whose intervals strictly
overlap is reported by the pair scan. -/
theorem conflictPairs_complete : ∀ {l : List Task} {t1 t2 : Task},
    List.Sublist [t1, t2] l → strictOverlap t1 t2 → (t1, t2) ∈ conflictPairs l := by
  intro l
  induction l with
  | nil => intro t1 t2 h _; cases h
  | cons a rest ih =>
    intro t1 t2 h hov
    cases h with
    | cons _ h =>
      exact List.mem_append.mpr (Or.inr (ih h hov))
    | cons₂ _ h =>
      refine List.mem_append.mpr (Or.inl ?_)
      refine List.mem_map.mpr ⟨t2, ?_, rfl⟩
      exact List.mem_filter.mpr ⟨List.singleton_sublist.mp h, decide_eq_true hov⟩

/-- C4: `detect_conflicts` restricts to tasks having both a time and a
duration and reports one record for exactly each ordered pair of them
whose derived `[start, start+duration)` intervals strictly overlap
(`start1 < end2` and `start2 < end1`): the record count equals the
overlapping-pair count, each record is an overlapping in-order pair of the
restricted list, every overlapping pair is reported — and concretely,
back-to-back tasks 08:00+30min / 08:30+30min yield no conflict while
08:00+30min / 08:00+15min yield exactly one. -/
theorem detect_conflicts_spec :
    (∀ tasks : List Task,
      (detect_conflicts tasks).length =
        countStrictOverlapPairs
          (tasks.filter (fun t => t.time.isSome && t.duration.isSome)) ∧
      (∀ p ∈ detect_conflicts tasks,
        p.1.time.isSome ∧ p.1.duration.isSome ∧ p.2.time.isSome ∧ p.2.duration.isSome ∧
        strictOverlap p.1 p.2 ∧
        List.Sublist [p.1, p.2]
          (tasks.filter (fun t => t.time.isSome && t.duration.isSome))) ∧
      (∀ t1 t2 : Task,
        List.Sublist [t1, t2]
          (tasks.filter (fun t => t.time.isSome && t.duration.isSome)) →
        strictOverlap t1 t2 → (t1, t2) ∈ detect_conflicts tasks)) ∧
    detect_conflicts [taskA0800x30, taskB0830x30] = [] ∧
    detect_conflicts [taskA0800x30, taskC0800x15] = [(taskA0800x30, taskC0800x15)] := by
  refine ⟨?_, by decide, by decide⟩
  intro tasks
  refine ⟨conflictPairs_length _, ?_, ?_⟩
  · intro p hp
    obtain ⟨hov, hsub⟩ := conflictPairs_sound _ p hp
    have h1 := List.of_mem_filter (hsub.subset (List.mem_cons_self _ _))
    have h2 := List.of_mem_filter (hsub.subset (List.mem_cons_of_mem _ (List.mem_cons_self _ _)))
    rw [Bool.and_eq_true] at h1 h2
    exact ⟨h1.1, h1.2, h2.1, h2.2, hov, hsub⟩
  · intro t1 t2 hsub hov
    exact conflictPairs_complete hsub hov

/-- Witness for C4: the general part applied to a concrete overlapping
pair. -/
theorem detect_conflicts_spec_witness :
    (taskA0800x30, taskC0800x15) ∈ detect_conflicts [taskA0800x30, lowTask5, taskC0800x15] := by
  refine (detect_conflicts_spec.1 [taskA0800x30, lowTask5, taskC0800x15]).2.2
    taskA0800x30 taskC0800x15 ?_ (by decide)
  decide

/-- A raising comprehension that completes evaluated its predicate
successfully on every element of the list. -/
theorem exceptFilter_ok : ∀ {l : List Task} {f : Task → Except String Bool}
    {res : List Task}, exceptFilter f l = .ok res → ∀ t ∈ l, ∃ b, f t = .ok b := by
  intro l
  induction l with
  | nil => intro f res _ t ht; cases ht
  | cons a rest ih =>
    intro f res h t ht
    simp only [exceptFilter] at h
    split at h
    · cases h
    · split at h
      · cases h
      · rcases List.mem_cons.mp ht with rfl | ht
        · exact ⟨_, by assumption⟩
        · exact ih (by assumption) t ht

/-- C10: with a pet-name filter, `filter_tasks` returns normally only if
every task whose pet reference is present has a pet with a present name —
the comprehension evaluates `t.pet.name.lower()` for every such task, so a
single pet with a `None` name makes the whole call raise `AttributeError`
instead of excluding that task, as the concrete instance shows. -/
theorem filter_tasks_name_safety :
    (∀ (tasks : List Task) (pn : String) (st : Option String) (res : List Task),
      filter_tasks tasks (some pn) st = .ok res →
      ∀ t ∈ tasks, ∀ p, t.pet = some p → p.name ≠ none) ∧
    filter_tasks [namelessPetTask] (some "rex") none =
      .error "AttributeError: 'NoneType' object has no attribute 'lower'" := by
  constructor
  · intro tasks pn st res h t ht p hp hn
    simp only [filter_tasks] at h
    split at h
    · cases h
    · obtain ⟨b, hb⟩ := exceptFilter_ok (by assumption) t ht
      simp [petNameMatches, hp, hn] at hb
  · decide

/-- Witness for C10: the theorem applied to a successful concrete call
whose single task has a named pet. -/
theorem filter_tasks_name_safety_witness :
    (⟨some "Rex"⟩ : PetRef).name ≠ none := by
  exact filter_tasks_name_safety.1 [dailyTask] "rex" none [dailyTask] (by decide)
    dailyTask (List.mem_cons_self _ _) ⟨some "Rex"⟩ (by decide)

/-- `add_pet` of an unattached pet keeps the graph consistent, points the
pet at the new owner, and leaves it in no other owner's collection. -/
theorem add_pet_inv {w : World} {o p : Nat} (hw : GraphInv w)
    (hv : w.petOwner p = none) :
    GraphInv (add_pet w o p) ∧ (add_pet w o p).petOwner p = some o ∧
      ∀ o', o' ≠ o → p ∉ (add_pet w o p).ownerPets o' := by
  have hnotin : ∀ o', p ∉ w.ownerPets o' := by
    intro o' hmem
    have := hw.1 o' p hmem
    rw [hv] at this
    cases this
  have hguard : ¬ p ∈ w.ownerPets o := hnotin o
  refine ⟨⟨?_, ?_, ?_, ?_⟩, ?_, ?_⟩
  · intro o' q hq
    simp only [add_pet, if_neg hguard] at hq ⊢
    by_cases ho' : o' = o
    · subst ho'
      rw [if_pos rfl] at hq
      rcases List.mem_append.mp hq with hq | hq
      · have hqp : q ≠ p := fun e => hnotin o' (e ▸ hq)
        rw [if_neg hqp]
        exact hw.1 o' q hq
      · have hqp : q = p := List.mem_singleton.mp hq
        subst hqp
        rw [if_pos rfl]
    · rw [if_neg ho'] at hq
      have hqp : q ≠ p := fun e => hnotin o' (e ▸ hq)
      rw [if_neg hqp]
      exact hw.1 o' q hq
  · intro o'
    simp only [add_pet, if_neg hguard]
    by_cases ho' : o' = o
    · subst ho'
      rw [if_pos rfl]
      exact List.nodup_append.mpr ⟨hw.2.1 o', List.nodup_singleton p,
        fun x hx hy => (List.mem_singleton.mp hy ▸ hnotin o') hx⟩
    · rw [if_neg ho']
      exact hw.2.1 o'
  · intro q t ht
    simp only [add_pet, if_neg hguard] at ht ⊢
    exact hw.2.2.1 q t ht
  · intro q
    simp only [add_pet, if_neg hguard]
    exact hw.2.2.2 q
  · simp [add_pet, if_neg hguard]
  · intro o' ho' hmem
    simp only [add_pet, if_neg hguard, if_neg ho'] at hmem
    exact hnotin o' hmem

/-- `remove_pet` keeps the graph consistent and clears the back-reference
of a pet that was in this owner's collection. -/
theorem remove_pet_inv {w : World} {o p : Nat} (hw : GraphInv w) :
    GraphInv (remove_pet w o p) ∧
      (p ∈ w.ownerPets o → (remove_pet w o p).petOwner p = none) := by
  by_cases hmem : p ∈ w.ownerPets o
  · refine ⟨⟨?_, ?_, ?_, ?_⟩, ?_⟩
    · intro o' q hq
      simp only [remove_pet, if_pos hmem] at hq ⊢
      by_cases ho' : o' = o
      · subst ho'
        rw [if_pos rfl] at hq
        have hq' := (List.Nodup.mem_erase_iff (hw.2.1 o')).mp hq
        rw [if_neg hq'.1]
        exact hw.1 o' q hq'.2
      · rw [if_neg ho'] at hq
        have hqp : q ≠ p := by
          intro e
          subst e
          have h1 := hw.1 o' q hq
          have h2 := hw.1 o q hmem
          rw [h1] at h2
          exact ho' (Option.some_inj.mp h2)
        rw [if_neg hqp]
        exact hw.1 o' q hq
    · intro o'
      simp only [remove_pet, if_pos hmem]
      by_cases ho' : o' = o
      · subst ho'
        rw [if_pos rfl]
        exact (hw.2.1 o').erase p
      · rw [if_neg ho']
        exact hw.2.1 o'
    · intro q t ht
      simp only [remove_pet, if_pos hmem] at ht ⊢
      exact hw.2.2.1 q t ht
    · intro q
      simp only [remove_pet, if_pos hmem]
      exact hw.2.2.2 q
    · intro _
      simp [remove_pet, if_pos hmem]
  · constructor
    · simp only [remove_pet, if_neg hmem]
      exact hw
    · intro h
      exact absurd h hmem

/-- `add_task` of an unattached task keeps the graph consistent, points
the task at the new pet, and leaves it in no other pet's collection. -/
theorem add_task_inv {w : World} {p t : Nat} (hw : GraphInv w)
    (hv : w.taskPet t = none) :
    GraphInv (add_task w p t) ∧ (add_task w p t).taskPet t = some p ∧
      ∀ p', p' ≠ p → t ∉ (add_task w p t).petTasks p' := by
  have hnotin : ∀ p', t ∉ w.petTasks p' := by
    intro p' hmem
    have := hw.2.2.1 p' t hmem
    rw [hv] at this
    cases this
  have hguard : ¬ t ∈ w.petTasks p := hnotin p
  refine ⟨⟨?_, ?_, ?_, ?_⟩, ?_, ?_⟩
  · intro o q hq
    simp only [add_task, if_neg hguard] at hq ⊢
    exact hw.1 o q hq
  · intro o
    simp only [add_task, if_neg hguard]
    exact hw.2.1 o
  · intro p' u hu
    simp only [add_task, if_neg hguard] at hu ⊢
    by_cases hp' : p' = p
    · subst hp'
      rw [if_pos rfl] at hu
      rcases List.mem_append.mp hu with hu | hu
      · have hut : u ≠ t := fun e => hnotin p' (e ▸ hu)
        rw [if_neg hut]
        exact hw.2.2.1 p' u hu
      · have hut : u = t := List.mem_singleton.mp hu
        subst hut
        rw [if_pos rfl]
    · rw [if_neg hp'] at hu
      have hut : u ≠ t := fun e => hnotin p' (e ▸ hu)
      rw [if_neg hut]
      exact hw.2.2.1 p' u hu
  · intro p'
    simp only [add_task, if_neg hguard]
    by_cases hp' : p' = p
    · subst hp'
      rw [if_pos rfl]
      exact List.nodup_append.mpr ⟨hw.2.2.2 p', List.nodup_singleton t,
        fun x hx hy => (List.mem_singleton.mp hy ▸ hnotin p') hx⟩
    · rw [if_neg hp']
      exact hw.2.2.2 p'
  · simp [add_task, if_neg hguard]
  · intro p' hp' hmem
    simp only [add_task, if_neg hguard, if_neg hp'] at hmem
    exact hnotin p' hmem

/-- `remove_task` keeps the graph consistent and clears the back-reference
of a task that was in this pet's collection. -/
theorem remove_task_inv {w : World} {p t : Nat} (hw : GraphInv w) :
    GraphInv (remove_task w p t) ∧
      (t ∈ w.petTasks p → (remove_task w p t).taskPet t = none) := by
  by_cases hmem : t ∈ w.petTasks p
  · refine ⟨⟨?_, ?_, ?_, ?_⟩, ?_⟩
    · intro o q hq
      simp only [remove_task, if_pos hmem] at hq ⊢
      exact hw.1 o q hq
    · intro o
      simp only [remove_task, if_pos hmem]
      exact hw.2.1 o
    · intro p' u hu
      simp only [remove_task, if_pos hmem] at hu ⊢
      by_cases hp' : p' = p
      · subst hp'
        rw [if_pos rfl] at hu
        have hu' := (List.Nodup.mem_erase_iff (hw.2.2.2 p')).mp hu
        rw [if_neg hu'.1]
        exact hw.2.2.1 p' u hu'.2
      · rw [if_neg hp'] at hu
        have hut : u ≠ t := by
          intro e
          subst e
          have h1 := hw.2.2.1 p' u hu
          have h2 := hw.2.2.1 p u hmem
          rw [h1] at h2
          exact hp' (Option.some_inj.mp h2)
        rw [if_neg hut]
        exact hw.2.2.1 p' u hu
    · intro p'
      simp only [remove_task, if_pos hmem]
      by_cases hp' : p' = p
      · subst hp'
        rw [if_pos rfl]
        exact (hw.2.2.2 p').erase t
      · rw [if_neg hp']
        exact hw.2.2.2 p'
    · intro _
      simp [remove_task, if_pos hmem]
  · constructor
    · simp only [remove_task, if_neg hmem]
      exact hw
    · intro h
      exact absurd h hmem

/-- A consistent graph has each pet in at most one owner's collection and
each task in at most one pet's collection. -/
theorem GraphInv.atMostOne {w : World} (hw : GraphInv w) :
    atMostOneOwner w ∧ atMostOnePet w := by
  constructor
  · intro p o1 o2 h1 h2
    have e1 := hw.1 o1 p h1
    have e2 := hw.1 o2 p h2
    rw [e1] at e2
    exact Option.some_inj.mp e2
  · intro t p1 p2 h1 h2
    have e1 := hw.2.2.1 p1 t h1
    have e2 := hw.2.2.1 p2 t h2
    rw [e1] at e2
    exact Option.some_inj.mp e2

/-- Graph consistency is preserved along any valid call sequence. -/
theorem applyOps_inv : ∀ (ops : List GraphOp) (w : World),
    GraphInv w → ValidOps w ops → GraphInv (applyOps w ops) := by
  intro ops
  induction ops with
  | nil => intro w hw _; exact hw
  | cons op rest ih =>
    intro w hw hv
    refine ih (applyOp w op) ?_ hv.2
    cases op with
    | addPet o p => exact (add_pet_inv hw hv.1).1
    | removePet o p => exact (remove_pet_inv hw).1
    | addTask p t => exact (add_task_inv hw hv.1).1
    | removeTask p t => exact (remove_task_inv hw).1

/-- C9 counterexample: the claim fails as stated — from a state in which
pet 0 lies only in owner 0's collection (and the back-references are
consistent), the single call `add_pet(owner 1, pet 0)` leaves pet 0 in
both collections, because `add_pet` only guards against duplicates in its
own list and never detaches the pet from its previous owner. -/
theorem graph_invariant_counterexample :
    atMostOneOwner twoOwnerWorld ∧
    (0 : Nat) ∈ (add_pet twoOwnerWorld 1 0).ownerPets 0 ∧
    (0 : Nat) ∈ (add_pet twoOwnerWorld 1 0).ownerPets 1 ∧
    ¬ atMostOneOwner (add_pet twoOwnerWorld 1 0) := by
  have hm0 : (0 : Nat) ∈ (add_pet twoOwnerWorld 1 0).ownerPets 0 := by decide
  have hm1 : (0 : Nat) ∈ (add_pet twoOwnerWorld 1 0).ownerPets 1 := by decide
  refine ⟨?_, hm0, hm1, ?_⟩
  · intro p o1 o2 h1 h2
    by_cases e1 : o1 = 0
    · by_cases e2 : o2 = 0
      · rw [e1, e2]
      · simp [twoOwnerWorld, e2] at h2
    · simp [twoOwnerWorld, e1] at h1
  · intro h
    exact absurd (h 0 0 1 hm0 hm1) (by decide)

/-- C9 (amended): restricted to call sequences in which `add_pet` is only
invoked on a pet currently owned by nobody and `add_task` only on a task
currently attached to no pet, and starting from a state where collection
membership implies the matching back-reference and collections are
duplicate-free (the inductive strengthening of "each pet in at most one
collection"), every sequence of the four calls preserves that invariant —
in particular each pet stays in at most one owner's collection and each
task in at most one pet's collection — and the back-references track the
calls: such an `add_pet(o, p)` leaves `p.owner = o` and `p` in no other
owner's collection; `remove_pet(o, p)` with `p` in `o`'s collection leaves
`p.owner` cleared; likewise for tasks. -/
theorem graph_invariant_preservation :
    (∀ (w : World) (ops : List GraphOp), GraphInv w → ValidOps w ops →
      GraphInv (applyOps w ops) ∧ atMostOneOwner (applyOps w ops) ∧
        atMostOnePet (applyOps w ops)) ∧
    (∀ (w : World) (o p : Nat), GraphInv w → w.petOwner p = none →
      (add_pet w o p).petOwner p = some o ∧
        ∀ o', o' ≠ o → p ∉ (add_pet w o p).ownerPets o') ∧
    (∀ (w : World) (o p : Nat), p ∈ w.ownerPets o →
      (remove_pet w o p).petOwner p = none) ∧
    (∀ (w : World) (p t : Nat), GraphInv w → w.taskPet t = none →
      (add_task w p t).taskPet t = some p ∧
        ∀ p', p' ≠ p → t ∉ (add_task w p t).petTasks p') ∧
    (∀ (w : World) (p t : Nat), t ∈ w.petTasks p →
      (remove_task w p t).taskPet t = none) := by
  refine ⟨?_, ?_, ?_, ?_, ?_⟩
  · intro w ops hw hv
    have h := applyOps_inv ops w hw hv
    exact ⟨h, h.atMostOne⟩
  · intro w o p hw hv
    exact (add_pet_inv hw hv).2
  · intro w o p hmem
    simp [remove_pet, if_pos hmem]
  · intro w p t hw hv
    exact (add_task_inv hw hv).2
  · intro w p t hmem
    simp [remove_task, if_pos hmem]

/-- One fixed-pass step keeps the C2 state properties: placed entries
start at their parsed time, skips of timed tasks are justified. -/
theorem fixedStep_good (st : SchedState) (t : Task)
    (hs : ∀ e ∈ st.scheduled, FixedStartExact e)
    (hk : ∀ pr ∈ st.skipped, FixedSkipJustified pr) :
    (∀ e ∈ (fixedStep st t).scheduled, FixedStartExact e) ∧
    (∀ pr ∈ (fixedStep st t).skipped, FixedSkipJustified pr) := by
  cases hd : t.duration with
  | none =>
    refine ⟨?_, ?_⟩
    · intro e he
      simp only [fixedStep, hd] at he
      exact hs e he
    · intro pr hpr
      simp only [fixedStep, hd] at hpr
      rcases List.mem_append.mp hpr with h | h
      · exact hk pr h
      · rw [List.mem_singleton.mp h]
        intro _
        exact Or.inl ⟨rfl, Or.inl hd⟩
  | some d =>
    by_cases h0 : d ≤ 0
    · refine ⟨?_, ?_⟩
      · intro e he
        simp only [fixedStep, hd, if_pos h0] at he
        exact hs e he
      · intro pr hpr
        simp only [fixedStep, hd, if_pos h0] at hpr
        rcases List.mem_append.mp hpr with h | h
        · exact hk pr h
        · rw [List.mem_singleton.mp h]
          intro _
          exact Or.inl ⟨rfl, Or.inr ⟨d, hd, h0⟩⟩
    · by_cases hrem : st.remaining < d
      · refine ⟨?_, ?_⟩
        · intro e he
          simp only [fixedStep, hd, if_neg h0, if_pos hrem] at he
          exact hs e he
        · intro pr hpr
          simp only [fixedStep, hd, if_neg h0, if_pos hrem] at hpr
          rcases List.mem_append.mp hpr with h | h
          · exact hk pr h
          · rw [List.mem_singleton.mp h]
            intro _
            exact Or.inr ⟨st.remaining, d, rfl, hd, hrem⟩
      · refine ⟨?_, ?_⟩
        · intro e he
          simp only [fixedStep, hd, if_neg h0, if_neg hrem] at he
          rcases List.mem_append.mp he with h | h
          · exact hs e h
          · rw [List.mem_singleton.mp h]
            intro hm htm
            have htm' : t.time = some hm := htm
            show (Option.map time_to_minutes t.time).getD 0 = time_to_minutes hm
            rw [htm']
            rfl
        · intro pr hpr
          simp only [fixedStep, hd, if_neg h0, if_neg hrem] at hpr
          exact hk pr hpr

/-- The whole fixed pass keeps the C2 state properties. -/
theorem foldl_fixedStep_good : ∀ (ts : List Task) (st : SchedState),
    (∀ e ∈ st.scheduled, FixedStartExact e) →
    (∀ pr ∈ st.skipped, FixedSkipJustified pr) →
    (∀ e ∈ (ts.foldl fixedStep st).scheduled, FixedStartExact e) ∧
    (∀ pr ∈ (ts.foldl fixedStep st).skipped, FixedSkipJustified pr) := by
  intro ts
  induction ts with
  | nil => intro st hs hk; exact ⟨hs, hk⟩
  | cons t rest ih =>
    intro st hs hk
    have h := fixedStep_good st t hs hk
    exact ih (fixedStep st t) h.1 h.2

/-- One flexible-pass step on a task without a clock time keeps the C2
state properties (its entries and skips satisfy them vacuously). -/
theorem flexStep_good (ps : Int) (st : SchedState) (t : Task) (ht : t.time = none)
    (hs : ∀ e ∈ st.scheduled, FixedStartExact e)
    (hk : ∀ pr ∈ st.skipped, FixedSkipJustified pr) :
    (∀ e ∈ (flexStep ps st t).scheduled, FixedStartExact e) ∧
    (∀ pr ∈ (flexStep ps st t).skipped, FixedSkipJustified pr) := by
  have hskipOne : ∀ r, FixedSkipJustified (t, r) := by
    intro r hsome
    rw [ht] at hsome
    cases hsome
  have hschedOne : ∀ pn s e, FixedStartExact ⟨t, pn, s, e⟩ := by
    intro pn s e hm htm
    rw [ht] at htm
    cases htm
  cases hd : t.duration with
  | none =>
    refine ⟨?_, ?_⟩
    · intro e he
      simp only [flexStep, hd] at he
      exact hs e he
    · intro pr hpr
      simp only [flexStep, hd] at hpr
      rcases List.mem_append.mp hpr with h | h
      · exact hk pr h
      · rw [List.mem_singleton.mp h]
        exact hskipOne _
  | some d =>
    by_cases h0 : d ≤ 0
    · refine ⟨?_, ?_⟩
      · intro e he
        simp only [flexStep, hd, if_pos h0] at he
        exact hs e he
      · intro pr hpr
        simp only [flexStep, hd, if_pos h0] at hpr
        rcases List.mem_append.mp hpr with h | h
        · exact hk pr h
        · rw [List.mem_singleton.mp h]
          exact hskipOne _
    · by_cases hrem : st.remaining < d
      · refine ⟨?_, ?_⟩
        · intro e he
          simp only [flexStep, hd, if_neg h0, if_pos hrem] at he
          exact hs e he
        · intro pr hpr
          simp only [flexStep, hd, if_neg h0, if_pos hrem] at hpr
          rcases List.mem_append.mp hpr with h | h
          · exact hk pr h
          · rw [List.mem_singleton.mp h]
            exact hskipOne _
      · cases hsl : chooseSlot ps d st.occupied with
        | some s =>
          refine ⟨?_, ?_⟩
          · intro e he
            simp only [flexStep, hd, if_neg h0, if_neg hrem, hsl] at he
            rcases List.mem_append.mp he with h | h
            · exact hs e h
            · rw [List.mem_singleton.mp h]
              exact hschedOne _ _ _
          · intro pr hpr
            simp only [flexStep, hd, if_neg h0, if_neg hrem, hsl] at hpr
            exact hk pr hpr
        | none =>
          refine ⟨?_, ?_⟩
          · intro e he
            simp only [flexStep, hd, if_neg h0, if_neg hrem, hsl] at he
            exact hs e he
          · intro pr hpr
            simp only [flexStep, hd, if_neg h0, if_neg hrem, hsl] at hpr
            rcases List.mem_append.mp hpr with h | h
            · exact hk pr h
            · rw [List.mem_singleton.mp h]
              exact hskipOne _

/-- The whole flexible pass, over tasks without clock times, keeps the C2
state properties. -/
theorem foldl_flexStep_good : ∀ (ts : List Task) (ps : Int) (st : SchedState),
    (∀ t ∈ ts, t.time = none) →
    (∀ e ∈ st.scheduled, FixedStartExact e) →
    (∀ pr ∈ st.skipped, FixedSkipJustified pr) →
    (∀ e ∈ (ts.foldl (flexStep ps) st).scheduled, FixedStartExact e) ∧
    (∀ pr ∈ (ts.foldl (flexStep ps) st).skipped, FixedSkipJustified pr) := by
  intro ts
  induction ts with
  | nil => intro ps st _ hs hk; exact ⟨hs, hk⟩
  | cons t rest ih =>
    intro ps st hts hs hk
    have h := flexStep_good ps st t (hts t (List.mem_cons_self _ _)) hs hk
    exact ih ps (flexStep ps st t) (fun u hu => hts u (List.mem_cons_of_mem _ hu)) h.1 h.2

/-- C2: every entry of `scheduled_tasks` that carries a fixed `HH:MM` time
has `start_time_minutes` equal to the parsed clock time `hours*60 +
minutes` exactly, independent of any other task's placement; and a
fixed-time task is only ever skipped for an invalid duration or for a
duration exceeding the remaining budget — never because its interval
overlaps another task's. -/
theorem fixed_time_placement (o : Owner) :
    (∀ e ∈ (generate_schedule (some o)).scheduled_tasks,
      ∀ hm, e.task.time = some hm →
        e.start_time_minutes = (hm.hours : Int) * 60 + (hm.minutes : Int)) ∧
    (∀ pr ∈ (generate_schedule (some o)).skipped_tasks, pr.1.time.isSome →
      (pr.2 = .noValidDuration ∧
        (pr.1.duration = none ∨ ∃ d, pr.1.duration = some d ∧ d ≤ 0)) ∨
      (∃ rem d, pr.2 = .insufficientTotal rem d ∧ pr.1.duration = some d ∧ rem < d)) := by
  simp only [generate_schedule]
  by_cases he : (pending_of o).isEmpty
  · rw [if_pos he]
    exact ⟨fun e he' => absurd he' (by simp), fun pr hpr => absurd hpr (by simp)⟩
  · rw [if_neg he]
    have hbase1 : ∀ e ∈ ([] : List SchedEntry), FixedStartExact e := by
      intro e he'; cases he'
    have hbase2 : ∀ pr ∈ ([] : List (Task × SkipReason)), FixedSkipJustified pr := by
      intro pr hpr; cases hpr
    have h1 := foldl_fixedStep_good
      (((pending_of o).filter (fun t => t.time.isSome)).insertionSort fixedOrder)
      ⟨[], [], calculate_total_available_time o, 0, []⟩ hbase1 hbase2
    have hflexnone : ∀ t ∈ sort_tasks_by_priority
        ((pending_of o).filter (fun t => t.time.isNone)), t.time = none := by
      intro t htm
      have hmem := (List.mem_insertionSort priorityOrder).mp htm
      have hfil := List.of_mem_filter hmem
      exact Option.isNone_iff_eq_none.mp hfil
    have h2 := foldl_flexStep_good
      (sort_tasks_by_priority ((pending_of o).filter (fun t => t.time.isNone)))
      (get_start_time o)
      (((pending_of o).filter (fun t => t.time.isSome)).insertionSort fixedOrder |>.foldl
        fixedStep ⟨[], [], calculate_total_available_time o, 0, []⟩)
      hflexnone h1.1 h1.2
    refine ⟨?_, ?_⟩
    · intro e he' hm htm
      have hmem : e ∈ (schedule_passes o).scheduled :=
        (List.mem_insertionSort startOrder).mp he'
      exact h2.1 e hmem hm htm
    · intro pr hpr
      exact h2.2 pr hpr

/-- Witness for C2: the 09:30 fixed task of the concrete owner is placed
at exactly 9*60+30 minutes. -/
theorem fixed_time_placement_witness :
    (⟨vetTask, some "unknown pet", 570, 615⟩ : SchedEntry).start_time_minutes =
      (9 : Int) * 60 + 30 := by
  have hmem : (⟨vetTask, some "unknown pet", 570, 615⟩ : SchedEntry) ∈
      (generate_schedule (some vetOwner)).scheduled_tasks := by decide
  exact (fixed_time_placement vetOwner).1 _ hmem ⟨9, 30⟩ rfl

/-- A list never equals itself extended by one element. -/
theorem append_singleton_ne (l : List (Task × SkipReason)) (x : Task × SkipReason) :
    ¬ l ++ [x] = l := by
  intro h
  have := congrArg List.length h
  simp at this

/-- One fixed-pass step only appends to the skipped list. -/
theorem fixedStep_skipped_extends (st : SchedState) (t : Task) :
    ∃ l0, (fixedStep st t).skipped = st.skipped ++ l0 := by
  cases hd : t.duration with
  | none => exact ⟨[(t, .noValidDuration)], by simp [fixedStep, hd]⟩
  | some d =>
    by_cases h0 : d ≤ 0
    · exact ⟨[(t, .noValidDuration)], by simp [fixedStep, hd, h0]⟩
    · by_cases hrem : st.remaining < d
      · exact ⟨[(t, .insufficientTotal st.remaining d)],
          by simp [fixedStep, hd, h0, hrem]⟩
      · exact ⟨[], by simp [fixedStep, hd, h0, hrem]⟩

/-- One flexible-pass step only appends to the skipped list. -/
theorem flexStep_skipped_extends (ps : Int) (st : SchedState) (t : Task) :
    ∃ l0, (flexStep ps st t).skipped = st.skipped ++ l0 := by
  cases hd : t.duration with
  | none => exact ⟨[(t, .noValidDuration)], by simp [flexStep, hd]⟩
  | some d =>
    by_cases h0 : d ≤ 0
    · exact ⟨[(t, .noValidDuration)], by simp [flexStep, hd, h0]⟩
    · by_cases hrem : st.remaining < d
      · exact ⟨[(t, .insufficientTotal st.remaining d)],
          by simp [flexStep, hd, h0, hrem]⟩
      · cases hsl : chooseSlot ps d st.occupied with
        | some s => exact ⟨[], by simp [flexStep, hd, h0, hrem, hsl]⟩
        | none =>
          exact ⟨[(t, .insufficientSlot (calculate_free_time st.occupied 0 day_end_time) d)],
            by simp [flexStep, hd, h0, hrem, hsl]⟩

/-- The fixed pass only appends to the skipped list. -/
theorem foldl_fixedStep_skipped_extends : ∀ (ts : List Task) (st : SchedState),
    ∃ l, (ts.foldl fixedStep st).skipped = st.skipped ++ l := by
  intro ts
  induction ts with
  | nil => intro st; exact ⟨[], (List.append_nil _).symm⟩
  | cons t rest ih =>
    intro st
    obtain ⟨l1, h1⟩ := ih (fixedStep st t)
    obtain ⟨l0, h0⟩ := fixedStep_skipped_extends st t
    exact ⟨l0 ++ l1, by rw [List.foldl_cons, h1, h0, List.append_assoc]⟩

/-- The flexible pass only appends to the skipped list. -/
theorem foldl_flexStep_skipped_extends : ∀ (ts : List Task) (ps : Int) (st : SchedState),
    ∃ l, (ts.foldl (flexStep ps) st).skipped = st.skipped ++ l := by
  intro ts
  induction ts with
  | nil => intro ps st; exact ⟨[], (List.append_nil _).symm⟩
  | cons t rest ih =>
    intro ps st
    obtain ⟨l1, h1⟩ := ih ps (flexStep ps st t)
    obtain ⟨l0, h0⟩ := flexStep_skipped_extends ps st t
    exact ⟨l0 ++ l1, by rw [List.foldl_cons, h1, h0, List.append_assoc]⟩

/-- A fixed pass that skips nothing behaves identically under a larger
budget, finishing with the surplus added to its remaining budget. -/
theorem foldl_fixedStep_shift : ∀ (ts : List Task) (st : SchedState) (δ : Int),
    0 ≤ δ →
    (ts.foldl fixedStep st).skipped = st.skipped →
    ts.foldl fixedStep { st with remaining := st.remaining + δ } =
      { ts.foldl fixedStep st with
        remaining := (ts.foldl fixedStep st).remaining + δ } := by
  intro ts
  induction ts with
  | nil => intro st δ _ _; rfl
  | cons t rest ih =>
    intro st δ hδ hns
    simp only [List.foldl_cons] at hns ⊢
    obtain ⟨l1, h1⟩ := foldl_fixedStep_skipped_extends rest (fixedStep st t)
    obtain ⟨l0, h0⟩ := fixedStep_skipped_extends st t
    rw [h1, h0, List.append_assoc] at hns
    have hnil : l0 ++ l1 = [] := List.append_right_eq_self.mp hns
    have hl0 : l0 = [] := (List.append_eq_nil.mp hnil).1
    have hl1 : l1 = [] := (List.append_eq_nil.mp hnil).2
    have hstepskip : (fixedStep st t).skipped = st.skipped := by
      rw [h0, hl0, List.append_nil]
    cases hd : t.duration with
    | none =>
      exfalso
      have : (fixedStep st t).skipped = st.skipped ++ [(t, .noValidDuration)] := by
        simp [fixedStep, hd]
      rw [hstepskip] at this
      exact append_singleton_ne _ _ this.symm
    | some d =>
      by_cases h0' : d ≤ 0
      · exfalso
        have : (fixedStep st t).skipped = st.skipped ++ [(t, .noValidDuration)] := by
          simp [fixedStep, hd, h0']
        rw [hstepskip] at this
        exact append_singleton_ne _ _ this.symm
      · by_cases hrem : st.remaining < d
        · exfalso
          have : (fixedStep st t).skipped =
              st.skipped ++ [(t, .insufficientTotal st.remaining d)] := by
            simp [fixedStep, hd, h0', hrem]
          rw [hstepskip] at this
          exact append_singleton_ne _ _ this.symm
        · have hrem2 : ¬ st.remaining + δ < d := by omega
          have hstep : fixedStep { st with remaining := st.remaining + δ } t =
              { fixedStep st t with remaining := (fixedStep st t).remaining + δ } := by
            refine SchedState.ext ?_ ?_ ?_ ?_ ?_ <;>
              simp [fixedStep, hd, h0', hrem, hrem2] <;> omega
          rw [hstep]
          have hns' : (rest.foldl fixedStep (fixedStep st t)).skipped =
              (fixedStep st t).skipped := by
            rw [h1, hl1, List.append_nil]
          exact ih (fixedStep st t) δ hδ hns'

/-- A flexible pass that skips nothing behaves identically under a larger
budget, finishing with the surplus added to its remaining budget. -/
theorem foldl_flexStep_shift : ∀ (ts : List Task) (ps : Int) (st : SchedState) (δ : Int),
    0 ≤ δ →
    (ts.foldl (flexStep ps) st).skipped = st.skipped →
    ts.foldl (flexStep ps) { st with remaining := st.remaining + δ } =
      { ts.foldl (flexStep ps) st with
        remaining := (ts.foldl (flexStep ps) st).remaining + δ } := by
  intro ts
  induction ts with
  | nil => intro ps st δ _ _; rfl
  | cons t rest ih =>
    intro ps st δ hδ hns
    simp only [List.foldl_cons] at hns ⊢
    obtain ⟨l1, h1⟩ := foldl_flexStep_skipped_extends rest ps (flexStep ps st t)
    obtain ⟨l0, h0⟩ := flexStep_skipped_extends ps st t
    rw [h1, h0, List.append_assoc] at hns
    have hnil : l0 ++ l1 = [] := List.append_right_eq_self.mp hns
    have hl0 : l0 = [] := (List.append_eq_nil.mp hnil).1
    have hl1 : l1 = [] := (List.append_eq_nil.mp hnil).2
    have hstepskip : (flexStep ps st t).skipped = st.skipped := by
      rw [h0, hl0, List.append_nil]
    cases hd : t.duration with
    | none =>
      exfalso
      have : (flexStep ps st t).skipped = st.skipped ++ [(t, .noValidDuration)] := by
        simp [flexStep, hd]
      rw [hstepskip] at this
      exact append_singleton_ne _ _ this.symm
    | some d =>
      by_cases h0' : d ≤ 0
      · exfalso
        have : (flexStep ps st t).skipped = st.skipped ++ [(t, .noValidDuration)] := by
          simp [flexStep, hd, h0']
        rw [hstepskip] at this
        exact append_singleton_ne _ _ this.symm
      · by_cases hrem : st.remaining < d
        · exfalso
          have : (flexStep ps st t).skipped =
              st.skipped ++ [(t, .insufficientTotal st.remaining d)] := by
            simp [flexStep, hd, h0', hrem]
          rw [hstepskip] at this
          exact append_singleton_ne _ _ this.symm
        · cases hsl : chooseSlot ps d st.occupied with
          | none =>
            exfalso
            have : (flexStep ps st t).skipped = st.skipped ++
                [(t, .insufficientSlot (calculate_free_time st.occupied 0 day_end_time) d)] := by
              simp [flexStep, hd, h0', hrem, hsl]
            rw [hstepskip] at this
            exact append_singleton_ne _ _ this.symm
          | some s =>
            have hrem2 : ¬ st.remaining + δ < d := by omega
            have hstep : flexStep ps { st with remaining := st.remaining + δ } t =
                { flexStep ps st t with remaining := (flexStep ps st t).remaining + δ } := by
              refine SchedState.ext ?_ ?_ ?_ ?_ ?_ <;>
                simp [flexStep, hd, h0', hrem, hrem2, hsl] <;> omega
            rw [hstep]
            have hns' : (rest.foldl (flexStep ps) (flexStep ps st t)).skipped =
                (flexStep ps st t).skipped := by
              rw [h1, hl1, List.append_nil]
            exact ih ps (flexStep ps st t) δ hδ hns'

/-- Changing only the budget leaves the collected pending tasks alone. -/
theorem pending_of_set_avail (o : Owner) (b : Int) :
    pending_of { o with available_time_minutes := b } = pending_of o := rfl

/-- Changing only the budget leaves the preferred start time alone. -/
theorem get_start_time_set_avail (o : Owner) (b : Int) :
    get_start_time { o with available_time_minutes := b } = get_start_time o := rfl

/-- The owner's budget is read back verbatim. -/
theorem calc_avail_set (o : Owner) (b : Int) :
    calculate_total_available_time { o with available_time_minutes := b } = b := rfl

/-- C3 counterexample: the claim fails as stated.  With a 1400-minute
fixed task at 00:00 and a 50-minute flexible task, budget 100 skips the
fixed task and schedules the flexible one; raising the budget to 1440
schedules the fixed task, leaving only 40 minutes, so the previously
scheduled flexible task moves to the skipped list. -/
theorem budget_monotonicity_counterexample :
    (100 : Int) ≤ 1440 ∧
    monoOwner 1440 = { monoOwner 100 with available_time_minutes := 1440 } ∧
    monoFlexTask ∈
      (generate_schedule (some (monoOwner 100))).scheduled_tasks.map SchedEntry.task ∧
    monoFlexTask ∈
      (generate_schedule (some (monoOwner 1440))).skipped_tasks.map Prod.fst ∧
    monoFlexTask ∉
      (generate_schedule (some (monoOwner 1440))).scheduled_tasks.map SchedEntry.task := by
  decide

/-- C3 (amended): holding the owner's pets, tasks and preferences fixed,
if the run with budget `b1` skips no task, then any run with budget
`b2 ≥ b1` produces the identical schedule — in particular every task
scheduled at `b1` is still scheduled, and none moves to skipped.  (The
unrestricted claim is false: a task the smaller budget skipped can, once
admitted by the larger budget, consume budget or space that previously
went to another task, as the counterexample shows.) -/
theorem budget_monotonicity_of_no_skips (o : Owner) (b1 b2 : Int) (hb : b1 ≤ b2)
    (hns : (generate_schedule
      (some { o with available_time_minutes := b1 })).skipped_tasks = []) :
    generate_schedule (some { o with available_time_minutes := b2 }) =
      generate_schedule (some { o with available_time_minutes := b1 }) := by
  simp only [generate_schedule, pending_of_set_avail] at hns ⊢
  by_cases he : (pending_of o).isEmpty
  · simp only [if_pos he]
  · simp only [if_neg he] at hns ⊢
    have hcore : schedule_passes { o with available_time_minutes := b2 } =
        { schedule_passes { o with available_time_minutes := b1 } with
          remaining :=
            (schedule_passes { o with available_time_minutes := b1 }).remaining +
              (b2 - b1) } := by
      simp only [schedule_passes, pending_of_set_avail, get_start_time_set_avail,
        calc_avail_set]
      have hskip1 : ((sort_tasks_by_priority
          ((pending_of o).filter (fun t => t.time.isNone))).foldl
            (flexStep (get_start_time o))
            ((((pending_of o).filter (fun t => t.time.isSome)).insertionSort
              fixedOrder).foldl fixedStep ⟨[], [], b1, 0, []⟩)).skipped = [] := hns
      obtain ⟨lx, hlx⟩ := foldl_flexStep_skipped_extends
        (sort_tasks_by_priority ((pending_of o).filter (fun t => t.time.isNone)))
        (get_start_time o)
        ((((pending_of o).filter (fun t => t.time.isSome)).insertionSort
          fixedOrder).foldl fixedStep ⟨[], [], b1, 0, []⟩)
      rw [hskip1] at hlx
      have hst1skip : ((((pending_of o).filter (fun t => t.time.isSome)).insertionSort
          fixedOrder).foldl fixedStep
          (⟨[], [], b1, 0, []⟩ : SchedState)).skipped = [] :=
        (List.append_eq_nil.mp hlx.symm).1
      have hbase : (⟨[], [], b2, 0, []⟩ : SchedState) =
          { (⟨[], [], b1, 0, []⟩ : SchedState) with remaining := b1 + (b2 - b1) } := by
        show (⟨[], [], b2, 0, []⟩ : SchedState) = ⟨[], [], b1 + (b2 - b1), 0, []⟩
        exact congrArg (fun r => (⟨[], [], r, 0, []⟩ : SchedState)) (by omega)
      rw [hbase]
      rw [foldl_fixedStep_shift _ ⟨[], [], b1, 0, []⟩ (b2 - b1) (by omega) hst1skip]
      rw [foldl_flexStep_shift _ _ _ (b2 - b1) (by omega) (by rw [hskip1, hst1skip])]
    rw [hcore]

/-- Witness for C3: the amended theorem applied to a concrete owner whose
single 20-minute task fits at budget 480, comparing with budget 500. -/
theorem budget_monotonicity_of_no_skips_witness :
    generate_schedule (some { easyOwner 0 with available_time_minutes := 500 }) =
      generate_schedule (some { easyOwner 0 with available_time_minutes := 480 }) := by
  exact budget_monotonicity_of_no_skips (easyOwner 0) 480 500 (by decide) (by decide)

/-- Witness for C9: the amended theorem applied to a concrete valid
sequence (attach pet 1 to owner 1, attach then detach task 0 on pet 0)
from the concrete consistent start state. -/
theorem graph_invariant_preservation_witness :
    atMostOneOwner (applyOps twoOwnerWorld
      [.addPet 1 1, .addTask 0 0, .removeTask 0 0]) := by
  have hinv : GraphInv twoOwnerWorld := by
    refine ⟨?_, ?_, ?_, ?_⟩
    · intro o p hp
      by_cases e : o = 0
      · subst e
        simp [twoOwnerWorld] at hp ⊢
        omega
      · simp [twoOwnerWorld, e] at hp
    · intro o
      by_cases e : o = 0 <;> simp [twoOwnerWorld, e]
    · intro p t ht
      simp [twoOwnerWorld] at ht
    · intro p
      simp [twoOwnerWorld]
  have hvalid : ValidOps twoOwnerWorld [.addPet 1 1, .addTask 0 0, .removeTask 0 0] := by
    refine ⟨?_, ?_, ?_, trivial⟩
    · show twoOwnerWorld.petOwner 1 = none
      decide
    · show (applyOp twoOwnerWorld (.addPet 1 1)).taskPet 0 = none
      decide
    · show True
      trivial
  exact (graph_invariant_preservation.1 twoOwnerWorld
    [.addPet 1 1, .addTask 0 0, .removeTask 0 0] hinv hvalid).2.1

end PawPal
